import Mathlib

/-!
Verification development for the trie-based search subsystem and the color
minify plugin of the `@typhonjs-fvtt/runtime` repository (version 0.1.3).

The trie search engine (`TrieSearch`) and reactive query facade
(`TrieSearchQuery`) ship only as type declarations in this snapshot
(`_dist/data/struct/search/trie/query/index.d.ts`); their implementation is
modelled here from the specification document.  The color minify plugin
(`_dist/color/colord/plugins/minify.js`) is embedded from its source.

Strings are modelled as `List Char`; items are drawn from an arbitrary type
with decidable equality, matching the engine's item-equality keyed map.
-/

set_option autoImplicit false
set_option linter.unusedSectionVars false

namespace TyphonTS

mutual

/-- Modelled from the spec: a `TrieNode` carries a set of item references
terminating at this node and a mapping from the next character to the child
node (spec section 3, "TrieNode").  Children are an association list keyed by
character. -/
inductive Trie (α : Type) : Type where
  | node : List α → Children α → Trie α

inductive Children (α : Type) : Type where
  | nil : Children α
  | cons : Char → Trie α → Children α → Children α

end

variable {α : Type} [DecidableEq α]

/-- The item set of a node. -/
def Trie.items : Trie α → List α
  | .node is _ => is

/-- The child map of a node. -/
def Trie.children : Trie α → Children α
  | .node _ cs => cs

/-- The empty trie node: no items, no children. -/
def emptyTrie : Trie α := .node [] .nil

/-- Look up the child for a character in a child map. -/
def childOf : Children α → Char → Option (Trie α)
  | .nil, _ => none
  | .cons c t rest, q => if c = q then some t else childOf rest q

/-- Replace the child for a character, or append a new entry. -/
def setChild : Children α → Char → Trie α → Children α
  | .nil, q, u => .cons q u .nil
  | .cons c t rest, q, u => if c = q then .cons q u rest else .cons c t (setChild rest q u)

/-- Add an item to a node's item set; a no-op when already present, so item
sets never hold duplicates. -/
def addItem (x : α) : Trie α → Trie α
  | .node is cs => .node (if x ∈ is then is else is ++ [x]) cs

/-- A node is empty when it has neither items nor children; such nodes are
pruned by removal (spec section 4.2, `remove`). -/
def isEmptyNode : Trie α → Bool
  | .node [] .nil => true
  | _ => false

/-- Modelled from the spec: walking one indexable character path inserts the
item into the node of every prefix position that satisfies the
minimum-indexed-length policy (spec section 4.2, `add`).  `d` is the depth of
the current node (number of characters consumed from the root). -/
def insPath (x : α) (mn : Nat) : List Char → Nat → Trie α → Trie α
  | [], _, t => t
  | c :: w, d, .node is cs =>
    let sub := (childOf cs c).getD emptyTrie
    let sub1 := if mn ≤ d + 1 then addItem x sub else sub
    .node is (setChild cs c (insPath x mn w (d + 1) sub1))

mutual

/-- Modelled from the spec: `remove` deletes the item from every terminal node
it was indexed under and prunes nodes left with empty item sets and no
children (spec section 4.2, `remove`).  Implemented as a traversal deleting
the item everywhere; in reachable states the item only occurs along its own
indexed paths, so exactly those nodes are touched. -/
def purge (x : α) : Trie α → Trie α
  | .node is cs => .node (is.filter (fun y => decide (¬ y = x))) (purgeC x cs)

def purgeC (x : α) : Children α → Children α
  | .nil => .nil
  | .cons c t rest =>
    let t1 := purge x t
    if isEmptyNode t1 then purgeC x rest else .cons c t1 (purgeC x rest)

end

mutual

/-- Whether an item occurs in any item set of the trie. -/
def containsT (x : α) : Trie α → Bool
  | .node is cs => decide (x ∈ is) || containsC x cs

def containsC (x : α) : Children α → Bool
  | .nil => false
  | .cons _ t rest => containsT x t || containsC x rest

end

mutual

/-- Whether the trie is pruned: no reachable non-root node is empty (spec
section 4.2: emptied nodes are pruned, bounding memory). -/
def prunedT : Trie α → Bool
  | .node _ cs => prunedC cs

def prunedC : Children α → Bool
  | .nil => true
  | .cons _ t rest => !isEmptyNode t && prunedT t && prunedC rest

end

mutual

/-- Collect the items of a node and of all its descendants (spec glossary,
"Expansion": returning items from descendant nodes beyond an exact match). -/
def collectT : Trie α → List α
  | .node is cs => is ++ collectC cs

def collectC : Children α → List α
  | .nil => []
  | .cons _ t rest => collectT t ++ collectC rest

end

/-- Walk the trie along a character path, returning the node reached, if the
complete path exists. -/
def lookupNode : Trie α → List Char → Option (Trie α)
  | t, [] => some t
  | .node _ cs, c :: w => (childOf cs c).bind (fun sub => lookupNode sub w)

/-- Split a string into whitespace-delimited words (spec section 3: the
default token splitter).  `acc` accumulates the current word reversed. -/
def splitWsAux : List Char → List Char → List (List Char)
  | [], acc => if acc.isEmpty then [] else [acc.reverse]
  | c :: rest, acc =>
    if c.isWhitespace then
      if acc.isEmpty then splitWsAux rest [] else acc.reverse :: splitWsAux rest []
    else splitWsAux rest (c :: acc)

/-- Whitespace word splitting of a query or key string. -/
def splitWs (s : List Char) : List (List Char) := splitWsAux s []

/-- Case normalization per the configured case-sensitivity policy. -/
def normWord (ignoreCase : Bool) (w : List Char) : List Char :=
  if ignoreCase then w.map Char.toLower else w

/-- The nonempty suffixes of a word, longest first. -/
def suffixes : List Char → List (List Char)
  | [] => []
  | c :: w => (c :: w) :: suffixes w

/-- Modelled from the spec: the `TrieSearch` engine owns the root node, a map
from item-equality key to item (modelled as the list of present items, the
item being its own key), and its configuration: key selector, minimum
indexed length, and case-sensitivity policy (spec section 3, "TrieSearch").
The implementation is absent from this snapshot; only its type declarations
ship. -/
structure TrieSearch (α : Type) where
  keysel : α → List (List Char)
  mn : Nat
  ignoreCase : Bool
  root : Trie α
  present : List α

/-- The indexable words derived from an item: each key-selector string is
normalized and split into whitespace-delimited words. -/
def indexWords (ts : TrieSearch α) (x : α) : List (List Char) :=
  (ts.keysel x).flatMap (fun s => splitWs (normWord ts.ignoreCase s))

/-- All character paths indexed for an item: every suffix window of every
indexable word (spec section 4.2: every suffix/prefix window is indexed so a
sufficiently long contiguous substring finds the item). -/
def indexPaths (ts : TrieSearch α) (x : α) : List (List Char) :=
  (indexWords ts x).flatMap suffixes

/-- Insert an item along each of a list of character paths. -/
def insertPaths (x : α) (mn : Nat) (ps : List (List Char)) (t : Trie α) : Trie α :=
  ps.foldl (fun t w => insPath x mn w 0 t) t

/-- Modelled from the spec: `add(item)` indexes the item under every derived
path; re-adding an already present item (by equality key) is a no-op (spec
section 4.2, `add`). -/
def TrieSearch.add (ts : TrieSearch α) (x : α) : TrieSearch α :=
  if x ∈ ts.present then ts
  else { ts with root := insertPaths x ts.mn (indexPaths ts x) ts.root,
                 present := ts.present ++ [x] }

/-- Modelled from the spec: `remove(item)` removes the item from every node it
was indexed under, pruning emptied nodes; removing an absent item is a no-op
(spec section 4.2, `remove`). -/
def TrieSearch.remove (ts : TrieSearch α) (x : α) : TrieSearch α :=
  if x ∈ ts.present then
    { ts with root := purge x ts.root,
              present := ts.present.filter (fun y => decide (¬ y = x)) }
  else ts

/-- Modelled from the spec: searching a single token walks the trie along the
token's character path; if the path exists, the terminal node's item set and
the item sets of all descendant nodes are collected (prefix expansion), with
duplicates removed; a token with no indexed path yields the empty result
(spec section 4.2, `search`). -/
def searchToken (ts : TrieSearch α) (tok : List Char) : List α :=
  (lookupNode ts.root (normWord ts.ignoreCase tok)).elim [] (fun n => (collectT n).dedup)

/-- Modelled from the spec: multiple query tokens return the intersection of
the per-token results, AND-semantics; no tokens yield the empty result (spec
section 4.2, `search`, and the edge policy of section 4.2). -/
def searchTokens (ts : TrieSearch α) : List (List Char) → List α
  | [] => []
  | tok :: rest =>
    rest.foldl (fun acc t => acc.filter (fun y => decide (y ∈ searchToken ts t)))
      (searchToken ts tok)

/-- Modelled from the spec: a query string is split into whitespace-delimited
tokens and searched with AND-semantics. -/
def search (ts : TrieSearch α) (q : List Char) : List α :=
  searchTokens ts (splitWs q)

/-- Truncate a result list to at most `n` elements, in traversal order. -/
def takeLimit : Nat → List α → List α
  | _, [] => []
  | 0, _ :: _ => []
  | n + 1, x :: xs => x :: takeLimit n xs

/-- Modelled from the spec: search with an optional result-count limit; the
limit truncates by traversal order (spec section 4.2, `search`). -/
def searchLimited (ts : TrieSearch α) (limit : Option Nat) (q : List Char) : List α :=
  match limit with
  | none => search ts q
  | some n => takeLimit n (search ts q)

/-- A concrete key selector used for witnesses: the spec scenario items
1 ↦ Fireball, 2 ↦ Firewall, 3 ↦ Icebolt (spec section 8). -/
def exKeysel : Nat → List (List Char)
  | 1 => [['f', 'i', 'r', 'e', 'b', 'a', 'l', 'l']]
  | 2 => [['f', 'i', 'r', 'e', 'w', 'a', 'l', 'l']]
  | 3 => [['i', 'c', 'e', 'b', 'o', 'l', 't']]
  | _ => []

/-- A freshly constructed example engine. -/
def exEmpty : TrieSearch Nat := ⟨exKeysel, 1, true, emptyTrie, []⟩

/-- The example engine holding item 1. -/
def exOne : TrieSearch Nat := exEmpty.add 1

/-- The example engine holding the three scenario items. -/
def exThree : TrieSearch Nat := ((exEmpty.add 1).add 2).add 3

/-- The data-model invariant of spec section 3: for every item present, every
indexable string derived from it (a whitespace-delimited word of a
key-selector string, normalized, meeting the minimum-length policy) has a
complete character path from the root ending at a node whose item set
contains the item. -/
def trieInvariant (ts : TrieSearch α) : Prop :=
  ∀ x ∈ ts.present, ∀ s ∈ ts.keysel x, ∀ w ∈ splitWs (normWord ts.ignoreCase s),
    ts.mn ≤ w.length →
    ∃ n, lookupNode ts.root w = some n ∧ x ∈ n.items

/-- The reachable engine states: a freshly constructed engine followed by any
sequence of `add` and `remove` operations (spec section 3, lifecycle). -/
inductive Reachable (ks : α → List (List Char)) (mn : Nat) (ic : Bool) :
    TrieSearch α → Prop where
  | init : Reachable ks mn ic ⟨ks, mn, ic, emptyTrie, []⟩
  | addStep (ts : TrieSearch α) (x : α) :
      Reachable ks mn ic ts → Reachable ks mn ic (ts.add x)
  | removeStep (ts : TrieSearch α) (x : α) :
      Reachable ks mn ic ts → Reachable ks mn ic (ts.remove x)

/-- Error taxonomy of spec section 7: configuration errors surface at
construction, state errors on mutating a destroyed facade. -/
inductive QueryError : Type where
  | invalidConfiguration : QueryError
  | invalidState : QueryError
deriving DecidableEq

/-- Modelled from the spec: options accepted by the TrieSearch constructor;
the key selector may be absent and the minimum length may be negative, both
contradictory configurations (spec section 7). -/
structure TrieSearchOptions (α : Type) where
  keysel : Option (α → List (List Char))
  mn : Int
  ignoreCase : Bool

/-- Modelled from the spec: constructing a TrieSearch validates its options
synchronously; contradictory options (missing key selector, negative minimum
length) fail at construction time with InvalidConfiguration, never lazily at
first search (spec section 7).  The implementation is absent from this
snapshot. -/
def TrieSearch.create (opts : TrieSearchOptions α) : Except QueryError (TrieSearch α) :=
  match opts.keysel with
  | none => .error .invalidConfiguration
  | some ks =>
    if opts.mn < 0 then .error .invalidConfiguration
    else .ok ⟨ks, opts.mn.toNat, opts.ignoreCase, emptyTrie, []⟩

/-- Modelled from the spec: options accepted by the TrieSearchQuery
constructor (TrieSearchQueryOptions in the declaration file): an optional
result limit, possibly negative. -/
structure TrieSearchQueryOptions where
  limit : Option Int

/-- Modelled from the spec: the reactive query facade state: the bound
TrieSearch instance, the current query string, the current limit and the
destroyed flag (spec section 4.4 and the TrieSearchQuery declaration file). -/
structure QueryState (α : Type) where
  trie : TrieSearch α
  queryStr : List Char
  limit : Option Nat
  destroyed : Bool

/-- Modelled from the spec: constructing a TrieSearchQuery validates its
options synchronously; a negative limit fails with InvalidConfiguration at
construction time (spec section 7). -/
def TrieSearchQuery.create (ts : TrieSearch α) (opts : TrieSearchQueryOptions) :
    Except QueryError (QueryState α) :=
  match opts.limit with
  | none => .ok ⟨ts, [], none, false⟩
  | some L =>
    if L < 0 then .error .invalidConfiguration
    else .ok ⟨ts, [], some L.toNat, false⟩

/-- Modelled from the spec: setting the query string on a live facade
synchronously recomputes and publishes the result list (returned alongside
the new state); on a destroyed facade the mutation fails with InvalidState,
no result is published and nothing, including the underlying TrieSearch, is
modified (spec sections 4.4 and 7). -/
def setQuery (qs : QueryState α) (q : List Char) :
    Except QueryError (QueryState α × List α) :=
  if qs.destroyed then .error .invalidState
  else .ok ({ qs with queryStr := q }, searchLimited qs.trie qs.limit q)

/-- Modelled from the spec: setting the limit store on a live facade
recomputes with the new limit; on a destroyed facade the mutation fails with
InvalidState (spec section 4.4). -/
def setLimit (qs : QueryState α) (L : Option Nat) :
    Except QueryError (QueryState α × List α) :=
  if qs.destroyed then .error .invalidState
  else .ok ({ qs with limit := L }, searchLimited qs.trie L qs.queryStr)

/-- Modelled from the spec: destroy() tears the facade down from any state;
the destroyed flag is terminal and the underlying TrieSearch is not mutated
(spec section 4.4, unbinding). -/
def destroyQuery (qs : QueryState α) : QueryState α :=
  { qs with destroyed := true }

/-- A destroyed facade over the scenario engine, used for witnesses. -/
def exQueryDestroyed : QueryState Nat := destroyQuery ⟨exThree, [], none, false⟩

/-- Invalid TrieSearch options: the key selector is missing. -/
def exBadTSOptions : TrieSearchOptions Nat := ⟨none, 1, true⟩

/-- Invalid query options: a negative limit. -/
def exBadQueryOptions : TrieSearchQueryOptions := ⟨some (-1)⟩

/-! ### The color minify plugin, embedded from
`_dist/color/colord/plugins/minify.js` -/

/-- Embedded from `round` in minify.js: `Math.round(base * number) / base`
with `base = 10 ^ digits`; `Math.round` rounds half towards positive
infinity. -/
def jsRound (digits : Nat) (x : ℚ) : ℚ :=
  ((Int.floor (x * (10 : ℚ) ^ digits + 1 / 2) : ℤ) : ℚ) / (10 : ℚ) ^ digits

/-- The numeric value of one hexadecimal digit character. -/
def hexDigitVal (c : Char) : Option Nat :=
  if '0' ≤ c ∧ c ≤ '9' then some (c.toNat - '0'.toNat)
  else if 'a' ≤ c ∧ c ≤ 'f' then some (c.toNat - 'a'.toNat + 10)
  else if 'A' ≤ c ∧ c ≤ 'F' then some (c.toNat - 'A'.toNat + 10)
  else none

/-- Embedded from the `parseInt(a1 + a2, 16)` use in minifyHex: JS parseInt
parses the longest valid prefix and yields NaN (here none) when the first
character, possibly the text undefined, is invalid. -/
def parseHex2 (c1 c2 : Option Char) : Option Nat :=
  match c1.bind hexDigitVal with
  | none => none
  | some v1 =>
    match c2.bind hexDigitVal with
    | none => some v1
    | some v2 => some (16 * v1 + v2)

/-- The ambient colord instance surface read by the minify plugin: toHex()
(as a character list), alpha(), the toRgb() and toHsl() channels, and, when
the names plugin is installed, toName().  JS numbers are modelled as
rationals. -/
structure ColorInst where
  hex : List Char
  alphaV : ℚ
  rv : ℚ
  gv : ℚ
  bv : ℚ
  hv : ℚ
  sv : ℚ
  lv : ℚ
  nameFn : Option (Option String)

/-- The options object passed to minify, with field presence tracked so that
`Object.assign` defaulting (hex, rgb, hsl default to true; alphaHex,
transparent and name are falsy when absent) is embedded faithfully. -/
structure MinifyOptions where
  hexOpt : Option Bool
  rgbOpt : Option Bool
  hslOpt : Option Bool
  alphaHex : Bool
  transparent : Bool
  nameFlag : Bool

/-- The lossy-alpha test of minifyHex:
`round(parseInt(a1 + a2, 16) / 255, 2) !== alpha`, true as well when the
parse yields NaN. -/
def alphaLossy (a : ℚ) (a1 a2 : Option Char) : Bool :=
  match parseHex2 a1 a2 with
  | none => true
  | some v => decide (jsRound 2 ((v : ℚ) / 255) ≠ a)

/-- JS string concatenation of a possibly undefined character. -/
def optCharStr : Option Char → String
  | some c => String.singleton c
  | none => "undefined"

/-- Embedded from minifyHex in minify.js: the shortest hex representation of
the instance, or none (null) when the color is translucent and the two-digit
alpha round-trip is lossy. -/
def minifyHex (inst : ColorInst) : Option String :=
  let hex := inst.hex
  let a := inst.alphaV
  let r1 := hex.get? 1
  let r2 := hex.get? 2
  let g1 := hex.get? 3
  let g2 := hex.get? 4
  let b1 := hex.get? 5
  let b2 := hex.get? 6
  let a1 := hex.get? 7
  let a2 := hex.get? 8
  if 0 < a ∧ a < 1 ∧ alphaLossy a a1 a2 = true then none
  else if r1 = r2 ∧ g1 = g2 ∧ b1 = b2 then
    if a = 1 then some (String.singleton '#' ++ optCharStr r1 ++ optCharStr g1 ++ optCharStr b1)
    else if a1 = a2 then
      some (String.singleton '#' ++ optCharStr r1 ++ optCharStr g1 ++ optCharStr b1
        ++ optCharStr a1)
    else some (String.mk hex)
  else some (String.mk hex)

/-- Embedded from shortenNumber in minify.js: drop the leading zero before
the decimal point, replacing the first occurrence as String.replace does. -/
def stripZeroDot : List Char → List Char
  | '0' :: '.' :: rest => '.' :: rest
  | c :: rest => c :: stripZeroDot rest
  | [] => []

/-- Embedded from shortenNumber: numbers strictly between 0 and 1 lose their
leading zero; the ambient JS number-to-string conversion is the parameter
`ratStr`. -/
def shortenNumber (ratStr : ℚ → String) (q : ℚ) : String :=
  if 0 < q ∧ q < 1 then String.mk (stripZeroDot (ratStr q).toList) else ratStr q

def rgbOpen : String := "rgb("

def rgbaOpen : String := "rgba("

def hslOpen : String := "hsl("

def hslaOpen : String := "hsla("

def commaStr : String := ","

def pctStr : String := "%"

def closeParen : String := ")"

def transparentStr : String := "transparent"

/-- Embedded from minify in minify.js: the candidate variants pushed in
source order: the hex candidate (when hex is enabled, alpha is 1 or alphaHex
is set, and minifyHex is not null), the rgb()/rgba() candidate, the
hsl()/hsla() candidate, and finally either the transparent keyword or a CSS
color name. -/
def minifyVariants (ratStr : ℚ → String) (inst : ColorInst) (opts : MinifyOptions) :
    List String :=
  let a := inst.alphaV
  let rS := shortenNumber ratStr inst.rv
  let gS := shortenNumber ratStr inst.gv
  let bS := shortenNumber ratStr inst.bv
  let hS := shortenNumber ratStr inst.hv
  let sS := shortenNumber ratStr inst.sv
  let lS := shortenNumber ratStr inst.lv
  let aS := shortenNumber ratStr a
  let v1 : List String :=
    if opts.hexOpt.getD true = true ∧ (a = 1 ∨ opts.alphaHex = true) then
      match minifyHex inst with
      | some hx => [hx]
      | none => []
    else []
  let v2 : List String :=
    if opts.rgbOpt.getD true = true then
      [if a = 1 then rgbOpen ++ rS ++ commaStr ++ gS ++ commaStr ++ bS ++ closeParen
       else rgbaOpen ++ rS ++ commaStr ++ gS ++ commaStr ++ bS ++ commaStr ++ aS ++ closeParen]
    else []
  let v3 : List String :=
    if opts.hslOpt.getD true = true then
      [if a = 1 then
        hslOpen ++ hS ++ commaStr ++ sS ++ pctStr ++ commaStr ++ lS ++ pctStr ++ closeParen
       else
        hslaOpen ++ hS ++ commaStr ++ sS ++ pctStr ++ commaStr ++ lS ++ pctStr ++ commaStr
          ++ aS ++ closeParen]
    else []
  let v4 : List String :=
    if opts.transparent = true ∧ inst.rv = 0 ∧ inst.gv = 0 ∧ inst.bv = 0 ∧ a = 0 then
      [transparentStr]
    else if a = 1 ∧ opts.nameFlag = true ∧ inst.nameFn.isSome = true then
      match inst.nameFn with
      | some (some nm) => [nm]
      | _ => []
    else []
  v1 ++ v2 ++ v3 ++ v4

/-- The foldl at the heart of findShortestString: only a strictly shorter
candidate replaces the current best, so the earliest of equally short
candidates wins. -/
def fsFold (v : String) (rest : List String) : String :=
  rest.foldl (fun short s => if s.length < short.length then s else short) v

/-- Embedded from findShortestString in minify.js; an empty array yields
undefined (none). -/
def findShortestString (variants : List String) : Option String :=
  match variants with
  | [] => none
  | v :: rest => some (fsFold v rest)

/-- Embedded from minify in minify.js: the shortest of the generated
candidate representations. -/
def minify (ratStr : ℚ → String) (inst : ColorInst) (opts : MinifyOptions) :
    Option String :=
  findShortestString (minifyVariants ratStr inst opts)

/-- A concrete ambient number renderer for witnesses. -/
def exRatStr : ℚ → String := fun q => toString q.num

/-- Opaque red with full alpha, hex #ff0000, used for witnesses. -/
def exColorRed : ColorInst :=
  ⟨['#', 'f', 'f', '0', '0', '0', '0'], 1, 255, 0, 0, 0, 100, 50, none⟩

/-- Options disabling every candidate format. -/
def exAllOff : MinifyOptions := ⟨some false, some false, some false, false, false, false⟩

/-- The default (empty) options object. -/
def exDefaults : MinifyOptions := ⟨none, none, none, false, false, false⟩

/-! ### Basic lemmas on child maps, item sets and lookup -/

theorem childOf_setChild_self : ∀ (cs : Children α) (c : Char) (u : Trie α),
    childOf (setChild cs c u) c = some u
  | .nil, c, u => by simp [setChild, childOf]
  | .cons c' t rest, c, u => by
    by_cases h : c' = c
    · simp [setChild, h, childOf]
    · simp [setChild, h, childOf, childOf_setChild_self rest c u]

theorem childOf_setChild_ne : ∀ (cs : Children α) (c c' : Char) (u : Trie α),
    c' ≠ c → childOf (setChild cs c u) c' = childOf cs c'
  | .nil, c, c', u, h => by simp [setChild, childOf, Ne.symm h]
  | .cons c0 t rest, c, c', u, h => by
    by_cases h0 : c0 = c
    · subst h0
      simp [setChild, childOf, Ne.symm h]
    · simp only [setChild, if_neg h0, childOf]
      by_cases h1 : c0 = c'
      · simp [h1]
      · simp [h1, childOf_setChild_ne rest c c' u h]

theorem items_addItem (x : α) (t : Trie α) :
    (addItem x t).items = if x ∈ t.items then t.items else t.items ++ [x] := by
  cases t with
  | node is cs => simp [addItem, Trie.items]

theorem mem_items_addItem_self (x : α) (t : Trie α) : x ∈ (addItem x t).items := by
  rw [items_addItem]
  by_cases h : x ∈ t.items <;> simp [h]

theorem mem_items_addItem (x y : α) (t : Trie α) (h : y ∈ t.items) :
    y ∈ (addItem x t).items := by
  rw [items_addItem]
  by_cases hx : x ∈ t.items <;> simp [hx, h]

theorem children_addItem (x : α) (t : Trie α) :
    (addItem x t).children = t.children := by
  cases t with
  | node is cs => simp [addItem, Trie.children]

theorem lookupNode_nil (t : Trie α) : lookupNode t [] = some t := by
  cases t with
  | node is cs => rfl

theorem lookupNode_cons (is : List α) (cs : Children α) (c : Char) (w : List Char) :
    lookupNode (Trie.node is cs) (c :: w) = (childOf cs c).bind (fun sub => lookupNode sub w) :=
  rfl

theorem lookupNode_addItem_ne_nil (x : α) (t : Trie α) (c : Char) (p : List Char) :
    lookupNode (addItem x t) (c :: p) = lookupNode t (c :: p) := by
  cases t with
  | node is cs => simp [addItem, lookupNode_cons]

theorem lookupNode_append : ∀ (p : List Char) (t : Trie α) (q : List Char),
    lookupNode t (p ++ q) = (lookupNode t p).bind (fun n => lookupNode n q)
  | [], t, q => by simp [lookupNode]
  | c :: p, t, q => by
    cases t with
    | node is cs =>
      rw [List.cons_append, lookupNode_cons, lookupNode_cons]
      cases childOf cs c with
      | none => simp
      | some sub => simp [lookupNode_append p sub q]

/-! ### Insertion lemmas -/

theorem lookup_insPath_self (x : α) (mn : Nat) : ∀ (w : List Char) (d : Nat) (t : Trie α),
    w ≠ [] → mn ≤ d + w.length →
    ∃ n, lookupNode (insPath x mn w d t) w = some n ∧ x ∈ n.items
  | [], _, _, hne, _ => absurd rfl hne
  | [c], d, .node is cs, _, hmn => by
    have hm : mn ≤ d + 1 := by simpa using hmn
    refine ⟨addItem x ((childOf cs c).getD emptyTrie), ?_, mem_items_addItem_self _ _⟩
    simp only [insPath, if_pos hm]
    rw [lookupNode_cons, childOf_setChild_self]
    simp [insPath, lookupNode_nil]
  | c :: c2 :: w, d, .node is cs, _, hmn => by
    obtain ⟨n, hl, hx⟩ := lookup_insPath_self x mn (c2 :: w) (d + 1)
      (if mn ≤ d + 1 then addItem x ((childOf cs c).getD emptyTrie)
        else (childOf cs c).getD emptyTrie)
      (by simp) (by simp only [List.length_cons] at hmn ⊢; omega)
    refine ⟨n, ?_, hx⟩
    simp only [insPath]
    rw [lookupNode_cons, childOf_setChild_self]
    simpa using hl

theorem lookup_insPath_pres (x y : α) (mn : Nat) :
    ∀ (w : List Char) (d : Nat) (t : Trie α) (p : List Char) (n : Trie α),
    lookupNode t p = some n → y ∈ n.items →
    ∃ n', lookupNode (insPath x mn w d t) p = some n' ∧ y ∈ n'.items
  | [], _, t, p, n, hl, hy => ⟨n, by simpa [insPath] using hl, hy⟩
  | c :: w, d, .node is cs, [], n, hl, hy => by
    rw [lookupNode_nil] at hl
    have hn : Trie.node is cs = n := Option.some.inj hl
    refine ⟨_, lookupNode_nil _, ?_⟩
    simp only [insPath, Trie.items]
    have hy2 : y ∈ (Trie.node is cs).items := hn ▸ hy
    simpa [Trie.items] using hy2
  | c :: w, d, .node is cs, c' :: p', n, hl, hy => by
    rw [lookupNode_cons] at hl
    by_cases hc : c' = c
    · subst hc
      cases hsub : childOf cs c' with
      | none => rw [hsub] at hl; simp at hl
      | some sub0 =>
        rw [hsub] at hl
        simp only [Option.some_bind] at hl
        have hbase : ∃ m, lookupNode (if mn ≤ d + 1 then addItem x sub0 else sub0) p'
            = some m ∧ y ∈ m.items := by
          cases p' with
          | nil =>
            rw [lookupNode_nil] at hl
            have hn : sub0 = n := Option.some.inj hl
            subst hn
            by_cases hm : mn ≤ d + 1
            · exact ⟨_, by rw [if_pos hm, lookupNode_nil], mem_items_addItem _ _ _ hy⟩
            · exact ⟨_, by rw [if_neg hm, lookupNode_nil], hy⟩
          | cons c2 p2 =>
            by_cases hm : mn ≤ d + 1
            · exact ⟨n, by rw [if_pos hm, lookupNode_addItem_ne_nil]; exact hl, hy⟩
            · exact ⟨n, by rw [if_neg hm]; exact hl, hy⟩
        obtain ⟨m, hlm, hym⟩ := hbase
        obtain ⟨n', hn', hyn'⟩ := lookup_insPath_pres x y mn w (d + 1) _ p' m hlm hym
        refine ⟨n', ?_, hyn'⟩
        simp only [insPath]
        rw [lookupNode_cons, childOf_setChild_self, hsub]
        simpa using hn'
    · refine ⟨n, ?_, hy⟩
      simp only [insPath]
      rw [lookupNode_cons, childOf_setChild_ne _ _ _ _ hc]
      exact hl

/-! ### Removal lemmas -/

theorem isEmptyNode_iff (is : List α) (cs : Children α) :
    isEmptyNode (Trie.node is cs) = true ↔ is = [] ∧ cs = Children.nil := by
  cases is with
  | nil =>
    cases cs with
    | nil => simp [isEmptyNode]
    | cons c t rest => simp [isEmptyNode]
  | cons a as =>
    cases cs with
    | nil => simp [isEmptyNode]
    | cons c t rest => simp [isEmptyNode]

theorem purge_emptyTrie (x : α) : purge x (emptyTrie : Trie α) = emptyTrie := by
  simp [purge, purgeC, emptyTrie]

theorem purge_addItem (x : α) (t : Trie α) : purge x (addItem x t) = purge x t := by
  cases t with
  | node is cs =>
    by_cases h : x ∈ is
    · simp [addItem, h]
    · simp [addItem, h, purge, List.filter_append]

theorem purgeC_setChild (x : α) : ∀ (cs : Children α) (c : Char) (K : Trie α),
    purge x K = purge x ((childOf cs c).getD emptyTrie) →
    purgeC x (setChild cs c K) = purgeC x cs
  | .nil, c, K, h => by
    simp only [childOf, Option.getD_none] at h
    rw [purge_emptyTrie] at h
    simp [setChild, purgeC, h, isEmptyNode, emptyTrie]
  | .cons c0 t rest, c, K, h => by
    by_cases hc : c0 = c
    · subst hc
      simp only [childOf, if_pos rfl, Option.getD_some] at h
      simp [setChild, purgeC, h]
    · simp only [childOf, if_neg hc, Option.getD_some] at h
      simp only [setChild, if_neg hc, purgeC]
      rw [purgeC_setChild x rest c K h]

theorem purge_insPath (x : α) (mn : Nat) : ∀ (w : List Char) (d : Nat) (t : Trie α),
    purge x (insPath x mn w d t) = purge x t
  | [], _, t => by simp [insPath]
  | c :: w, d, .node is cs => by
    simp only [insPath, purge]
    congr 1
    apply purgeC_setChild
    rw [purge_insPath x mn w (d + 1)]
    by_cases hm : mn ≤ d + 1
    · rw [if_pos hm, purge_addItem]
    · rw [if_neg hm]

mutual

theorem purge_not_contains (x : α) : ∀ (t : Trie α),
    containsT x t = false → prunedT t = true → purge x t = t
  | .node is cs, h1, h2 => by
    simp only [containsT, Bool.or_eq_false_iff] at h1
    obtain ⟨hmem, hrest⟩ := h1
    have hx : x ∉ is := by simpa using hmem
    simp only [purge]
    congr 1
    · apply List.filter_eq_self.mpr
      intro y hy
      have hne : y ≠ x := fun hyx => hx (hyx ▸ hy)
      simpa using hne
    · exact purgeC_not_contains x cs hrest (by simpa [prunedT] using h2)

theorem purgeC_not_contains (x : α) : ∀ (cs : Children α),
    containsC x cs = false → prunedC cs = true → purgeC x cs = cs
  | .nil, _, _ => rfl
  | .cons c t rest, h1, h2 => by
    simp only [containsC, Bool.or_eq_false_iff] at h1
    simp only [prunedC, Bool.and_eq_true, Bool.not_eq_true'] at h2
    obtain ⟨ht, hrest⟩ := h1
    obtain ⟨⟨hne, hpt⟩, hpr⟩ := h2
    have hid : purge x t = t := purge_not_contains x t ht hpt
    simp only [purgeC, hid, hne]
    simp [purgeC_not_contains x rest hrest hpr]

end

theorem lookup_some_nonempty (y : α) : ∀ (p : List Char) (u n : Trie α),
    lookupNode u p = some n → y ∈ n.items → isEmptyNode u = false
  | [], u, n, hl, hy => by
    rw [lookupNode_nil] at hl
    obtain rfl : u = n := Option.some.inj hl
    cases u with
    | node is cs =>
      cases is with
      | nil => simp [Trie.items] at hy
      | cons a as =>
        cases hE : isEmptyNode (Trie.node (a :: as) cs) with
        | false => rfl
        | true => simp [isEmptyNode_iff] at hE
  | c :: p', u, n, hl, hy => by
    cases u with
    | node is cs =>
      rw [lookupNode_cons] at hl
      cases hsub : childOf cs c with
      | none => rw [hsub] at hl; simp at hl
      | some sub =>
        cases cs with
        | nil => simp [childOf] at hsub
        | cons c0 t rest =>
          cases hE : isEmptyNode (Trie.node is (Children.cons c0 t rest)) with
          | false => rfl
          | true => simp [isEmptyNode_iff] at hE

theorem childOf_purgeC (x : α) : ∀ (cs : Children α) (c : Char) (sub : Trie α),
    childOf cs c = some sub → isEmptyNode (purge x sub) = false →
    childOf (purgeC x cs) c = some (purge x sub)
  | .nil, c, sub, h, _ => by simp [childOf] at h
  | .cons c0 t rest, c, sub, h, hE => by
    by_cases hc : c0 = c
    · subst hc
      rw [childOf, if_pos rfl] at h
      obtain rfl : t = sub := Option.some.inj h
      simp only [purgeC, hE]
      simp [childOf]
    · rw [childOf, if_neg hc] at h
      have ih := childOf_purgeC x rest c sub h hE
      simp only [purgeC]
      by_cases hEt : isEmptyNode (purge x t)
      · simp [hEt, ih]
      · simp [hEt, childOf, hc, ih]

theorem lookup_purge_pres (x y : α) (hxy : y ≠ x) : ∀ (p : List Char) (t n : Trie α),
    lookupNode t p = some n → y ∈ n.items →
    ∃ n', lookupNode (purge x t) p = some n' ∧ y ∈ n'.items
  | [], t, n, hl, hy => by
    rw [lookupNode_nil] at hl
    obtain rfl : t = n := Option.some.inj hl
    refine ⟨purge x t, lookupNode_nil _, ?_⟩
    cases t with
    | node is cs =>
      simp only [purge, Trie.items] at hy ⊢
      exact List.mem_filter.mpr ⟨hy, by simpa using hxy⟩
  | c :: p', t, n, hl, hy => by
    cases t with
    | node is cs =>
      rw [lookupNode_cons] at hl
      cases hsub : childOf cs c with
      | none => rw [hsub] at hl; simp at hl
      | some sub =>
        rw [hsub] at hl
        simp only [Option.some_bind] at hl
        obtain ⟨n', hn', hyn'⟩ := lookup_purge_pres x y hxy p' sub n hl hy
        have hE : isEmptyNode (purge x sub) = false :=
          lookup_some_nonempty y p' (purge x sub) n' hn' hyn'
        refine ⟨n', ?_, hyn'⟩
        simp only [purge]
        rw [lookupNode_cons, childOf_purgeC x cs c sub hsub hE]
        simpa using hn'

/-! ### Tokenizer lemmas -/

theorem mem_splitWsAux : ∀ (s acc : List Char), (∀ c ∈ acc, ¬ c.isWhitespace) →
    ∀ w ∈ splitWsAux s acc, w ≠ [] ∧ ∀ c ∈ w, ¬ c.isWhitespace
  | [], acc, hacc, w, hw => by
    by_cases he : acc.isEmpty
    · simp [splitWsAux, he] at hw
    · simp only [splitWsAux, if_neg he, List.mem_singleton] at hw
      subst hw
      refine ⟨by simpa [List.isEmpty_iff] using he, ?_⟩
      intro c hc
      exact hacc c (List.mem_reverse.mp hc)
  | c :: rest, acc, hacc, w, hw => by
    by_cases hws : c.isWhitespace
    · rw [splitWsAux, if_pos hws] at hw
      by_cases he : acc.isEmpty
      · rw [if_pos he] at hw
        exact mem_splitWsAux rest [] (by simp) w hw
      · rw [if_neg he] at hw
        rcases List.mem_cons.mp hw with h | h
        · subst h
          refine ⟨by simpa [List.isEmpty_iff] using he, ?_⟩
          intro c0 hc0
          exact hacc c0 (List.mem_reverse.mp hc0)
        · exact mem_splitWsAux rest [] (by simp) w h
    · rw [splitWsAux, if_neg hws] at hw
      refine mem_splitWsAux rest (c :: acc) ?_ w hw
      intro c0 hc0
      rcases List.mem_cons.mp hc0 with h | h
      · exact h ▸ hws
      · exact hacc c0 h

theorem splitWsAux_all_ws : ∀ (s : List Char), (∀ c ∈ s, c.isWhitespace) →
    splitWsAux s [] = []
  | [], _ => by simp [splitWsAux]
  | c :: rest, h => by
    have hc : c.isWhitespace := h c (by simp)
    rw [splitWsAux, if_pos hc, if_pos (by simp)]
    exact splitWsAux_all_ws rest (fun c0 hc0 => h c0 (by simp [hc0]))

theorem splitWsAux_no_ws : ∀ (s acc : List Char), s ≠ [] → (∀ c ∈ s, ¬ c.isWhitespace) →
    splitWsAux s acc = [acc.reverse ++ s]
  | [], _, hne, _ => absurd rfl hne
  | c :: rest, acc, _, h => by
    have hc : ¬ c.isWhitespace := h c (by simp)
    rw [splitWsAux, if_neg hc]
    cases rest with
    | nil => simp [splitWsAux]
    | cons c2 rest2 =>
      rw [splitWsAux_no_ws (c2 :: rest2) (c :: acc) (by simp)
        (fun c0 hc0 => h c0 (by simp [List.mem_cons.mp hc0]))]
      simp

theorem splitWs_all_ws (s : List Char) (h : ∀ c ∈ s, c.isWhitespace) : splitWs s = [] :=
  splitWsAux_all_ws s h

theorem splitWs_single (w : List Char) (hne : w ≠ []) (h : ∀ c ∈ w, ¬ c.isWhitespace) :
    splitWs w = [w] := by
  rw [splitWs, splitWsAux_no_ws w [] hne h]
  simp

theorem mem_splitWs (s w : List Char) (hw : w ∈ splitWs s) :
    w ≠ [] ∧ ∀ c ∈ w, ¬ c.isWhitespace :=
  mem_splitWsAux s [] (by simp) w hw

theorem normWord_append (ic : Bool) (u v : List Char) :
    normWord ic (u ++ v) = normWord ic u ++ normWord ic v := by
  cases ic <;> simp [normWord]

/-! ### Collection and search lemmas -/

theorem mem_collectC_of_childOf : ∀ (cs : Children α) (c : Char) (sub : Trie α),
    childOf cs c = some sub → ∀ y ∈ collectT sub, y ∈ collectC cs
  | .nil, c, sub, h => by simp [childOf] at h
  | .cons c0 t rest, c, sub, h => by
    rw [childOf] at h
    by_cases hc : c0 = c
    · rw [if_pos hc] at h
      obtain rfl : t = sub := Option.some.inj h
      intro y hy
      simp [collectC, hy]
    · rw [if_neg hc] at h
      intro y hy
      have := mem_collectC_of_childOf rest c sub h y hy
      simp [collectC, this]

theorem mem_collect_of_lookup : ∀ (p : List Char) (u n : Trie α),
    lookupNode u p = some n → ∀ y ∈ collectT n, y ∈ collectT u
  | [], u, n, hl => by
    rw [lookupNode_nil] at hl
    obtain rfl : u = n := Option.some.inj hl
    exact fun y hy => hy
  | c :: p', u, n, hl => by
    cases u with
    | node is cs =>
      rw [lookupNode_cons] at hl
      cases hsub : childOf cs c with
      | none => rw [hsub] at hl; simp at hl
      | some sub =>
        rw [hsub] at hl
        simp only [Option.some_bind] at hl
        intro y hy
        have h1 := mem_collect_of_lookup p' sub n hl y hy
        have h2 := mem_collectC_of_childOf cs c sub hsub y h1
        simp [collectT, h2]

theorem mem_foldl_filter (ts : TrieSearch α) (y : α) :
    ∀ (toks : List (List Char)) (acc : List α),
    y ∈ List.foldl (fun acc t => acc.filter (fun z => decide (z ∈ searchToken ts t))) acc toks
      ↔ y ∈ acc ∧ ∀ t ∈ toks, y ∈ searchToken ts t
  | [], acc => by simp
  | tok :: toks, acc => by
    rw [List.foldl_cons, mem_foldl_filter ts y toks]
    rw [List.mem_filter]
    simp only [List.mem_cons]
    constructor
    · rintro ⟨⟨ha, hd⟩, hall⟩
      refine ⟨ha, ?_⟩
      rintro t (rfl | ht)
      · simpa using hd
      · exact hall t ht
    · rintro ⟨ha, hall⟩
      exact ⟨⟨ha, by simpa using hall tok (Or.inl rfl)⟩, fun t ht => hall t (Or.inr ht)⟩

theorem mem_searchTokens (ts : TrieSearch α) (y : α) (toks : List (List Char))
    (hne : toks ≠ []) :
    y ∈ searchTokens ts toks ↔ ∀ t ∈ toks, y ∈ searchToken ts t := by
  cases toks with
  | nil => exact absurd rfl hne
  | cons tok toks =>
    rw [searchTokens, mem_foldl_filter]
    simp only [List.mem_cons]
    constructor
    · rintro ⟨h1, h2⟩
      rintro t (rfl | ht)
      · exact h1
      · exact h2 t ht
    · intro h
      exact ⟨h tok (Or.inl rfl), fun t ht => h t (Or.inr ht)⟩

theorem searchTokens_single (ts : TrieSearch α) (tok : List Char) :
    searchTokens ts [tok] = searchToken ts tok := rfl

theorem search_word (ts : TrieSearch α) (w : List Char) (hne : w ≠ [])
    (h : ∀ c ∈ w, ¬ c.isWhitespace) : search ts w = searchToken ts w := by
  rw [search, splitWs_single w hne h, searchTokens_single]

theorem searchToken_nodup (ts : TrieSearch α) (tok : List Char) :
    (searchToken ts tok).Nodup := by
  rw [searchToken]
  cases lookupNode ts.root (normWord ts.ignoreCase tok) with
  | none => simp
  | some n => simp [List.nodup_dedup]

theorem nodup_foldl_filter (ts : TrieSearch α) :
    ∀ (toks : List (List Char)) (acc : List α), acc.Nodup →
    (List.foldl (fun acc t => acc.filter (fun z => decide (z ∈ searchToken ts t))) acc
      toks).Nodup
  | [], acc, h => by simpa using h
  | tok :: toks, acc, h => by
    rw [List.foldl_cons]
    exact nodup_foldl_filter ts toks _ (List.Nodup.filter _ h)

theorem searchTokens_nodup (ts : TrieSearch α) (toks : List (List Char)) :
    (searchTokens ts toks).Nodup := by
  cases toks with
  | nil => simp [searchTokens]
  | cons tok toks => exact nodup_foldl_filter ts toks _ (searchToken_nodup ts tok)

theorem takeLimit_eq_take : ∀ (n : Nat) (xs : List α), takeLimit n xs = xs.take n
  | _, [] => by cases ‹Nat› <;> simp [takeLimit]
  | 0, _ :: _ => by simp [takeLimit]
  | n + 1, x :: xs => by simp [takeLimit, takeLimit_eq_take n xs]

/-! ### Engine-level lemmas -/

theorem add_keysel (ts : TrieSearch α) (x : α) : (ts.add x).keysel = ts.keysel := by
  by_cases h : x ∈ ts.present <;> simp [TrieSearch.add, h]

theorem add_mn (ts : TrieSearch α) (x : α) : (ts.add x).mn = ts.mn := by
  by_cases h : x ∈ ts.present <;> simp [TrieSearch.add, h]

theorem add_ignoreCase (ts : TrieSearch α) (x : α) : (ts.add x).ignoreCase = ts.ignoreCase := by
  by_cases h : x ∈ ts.present <;> simp [TrieSearch.add, h]

theorem remove_keysel (ts : TrieSearch α) (x : α) : (ts.remove x).keysel = ts.keysel := by
  by_cases h : x ∈ ts.present <;> simp [TrieSearch.remove, h]

theorem remove_mn (ts : TrieSearch α) (x : α) : (ts.remove x).mn = ts.mn := by
  by_cases h : x ∈ ts.present <;> simp [TrieSearch.remove, h]

theorem remove_ignoreCase (ts : TrieSearch α) (x : α) :
    (ts.remove x).ignoreCase = ts.ignoreCase := by
  by_cases h : x ∈ ts.present <;> simp [TrieSearch.remove, h]

theorem mem_add_present (ts : TrieSearch α) (x : α) : x ∈ (ts.add x).present := by
  by_cases h : x ∈ ts.present <;> simp [TrieSearch.add, h]

theorem purge_insertPaths (x : α) (mn : Nat) : ∀ (ps : List (List Char)) (t : Trie α),
    purge x (insertPaths x mn ps t) = purge x t
  | [], t => rfl
  | p :: ps, t => by
    rw [insertPaths, List.foldl_cons]
    have := purge_insertPaths x mn ps (insPath x mn p 0 t)
    rw [insertPaths] at this
    rw [this, purge_insPath]

theorem lookup_insertPaths_pres (x y : α) (mn : Nat) :
    ∀ (ps : List (List Char)) (t : Trie α) (p : List Char) (n : Trie α),
    lookupNode t p = some n → y ∈ n.items →
    ∃ n', lookupNode (insertPaths x mn ps t) p = some n' ∧ y ∈ n'.items
  | [], t, p, n, hl, hy => ⟨n, hl, hy⟩
  | w :: ps, t, p, n, hl, hy => by
    rw [insertPaths, List.foldl_cons]
    obtain ⟨m, hm, hym⟩ := lookup_insPath_pres x y mn w 0 t p n hl hy
    exact lookup_insertPaths_pres x y mn ps (insPath x mn w 0 t) p m hm hym

theorem lookup_insertPaths_self (x : α) (mn : Nat) :
    ∀ (ps : List (List Char)) (t : Trie α) (w : List Char),
    w ∈ ps → w ≠ [] → mn ≤ w.length →
    ∃ n, lookupNode (insertPaths x mn ps t) w = some n ∧ x ∈ n.items
  | [], _, w, hw, _, _ => by simp at hw
  | p :: ps, t, w, hw, hne, hlen => by
    rw [insertPaths, List.foldl_cons]
    rcases List.mem_cons.mp hw with rfl | hw2
    · obtain ⟨n, hn, hx⟩ := lookup_insPath_self x mn w 0 t hne (by simpa using hlen)
      exact lookup_insertPaths_pres x x mn ps (insPath x mn w 0 t) w n hn hx
    · exact lookup_insertPaths_self x mn ps (insPath x mn p 0 t) w hw2 hne hlen

theorem mem_suffixes_self (w : List Char) (hne : w ≠ []) : w ∈ suffixes w := by
  cases w with
  | nil => exact absurd rfl hne
  | cons c w => simp [suffixes]

theorem search_nodup (ts : TrieSearch α) (q : List Char) : (search ts q).Nodup :=
  searchTokens_nodup ts (splitWs q)

theorem searchLimited_nodup (ts : TrieSearch α) (L : Option Nat) (q : List Char) :
    (searchLimited ts L q).Nodup := by
  cases L with
  | none => exact search_nodup ts q
  | some n =>
    rw [searchLimited, takeLimit_eq_take]
    exact List.Nodup.sublist (List.take_sublist n (search ts q)) (search_nodup ts q)

theorem searchToken_eq_nil (ts : TrieSearch α) (tok : List Char)
    (h : lookupNode ts.root (normWord ts.ignoreCase tok) = none) :
    searchToken ts tok = [] := by
  rw [searchToken, h]
  rfl

/-! ### Claim C1: multi-token search is per-token intersection -/

/-- C1: for every multi-token query, an item is in the result of the combined
search exactly when it is in the result of searching each token alone
(AND-semantics; spec section 4.2). -/
theorem multi_token_intersection (ts : TrieSearch α) (q : List Char) (y : α)
    (hmulti : 2 ≤ (splitWs q).length) :
    y ∈ search ts q ↔ ∀ tok ∈ splitWs q, y ∈ search ts tok := by
  have hne : splitWs q ≠ [] := by
    intro h0
    rw [h0] at hmulti
    simp at hmulti
  rw [search, mem_searchTokens ts y _ hne]
  constructor
  · intro h tok ht
    obtain ⟨hne2, hws⟩ := mem_splitWs q tok ht
    rw [search_word ts tok hne2 hws]
    exact h tok ht
  · intro h tok ht
    obtain ⟨hne2, hws⟩ := mem_splitWs q tok ht
    rw [← search_word ts tok hne2 hws]
    exact h tok ht

/-- C1 witness: concrete two-token query on the scenario engine. -/
theorem multi_token_intersection_witness :
    (2 ≤ (splitWs [' ', 'f', 'i', 'r', 'e', ' ', 'b', 'a', 'l', 'l']).length) ∧
    (1 ∈ search exThree [' ', 'f', 'i', 'r', 'e', ' ', 'b', 'a', 'l', 'l'] ↔
      ∀ tok ∈ splitWs [' ', 'f', 'i', 'r', 'e', ' ', 'b', 'a', 'l', 'l'],
        1 ∈ search exThree tok) :=
  ⟨by decide, multi_token_intersection exThree _ 1 (by decide)⟩

/-! ### Claim C2: add/remove round trip -/

/-- C2 counterexample: for a state already holding the item, add (a no-op) and
then remove does not restore the state: the item is gone afterwards. -/
theorem add_remove_roundtrip_counterexample : ¬ ((exOne.add 1).remove 1 = exOne) := by
  intro h
  exact absurd (congrArg TrieSearch.present h) (by decide)

/-- C2 (amended): for every pruned engine state not already containing the
item, add followed by remove of that item restores exactly the pre-insertion
state: the item is removed from every node it was indexed under and emptied
nodes are pruned away (spec sections 4.2 and 8). -/
theorem add_remove_roundtrip (ts : TrieSearch α) (x : α)
    (hx : x ∉ ts.present) (hc : containsT x ts.root = false)
    (hp : prunedT ts.root = true) :
    (ts.add x).remove x = ts := by
  have hadd : ts.add x = ⟨ts.keysel, ts.mn, ts.ignoreCase,
      insertPaths x ts.mn (indexPaths ts x) ts.root, ts.present ++ [x]⟩ := by
    rw [TrieSearch.add, if_neg hx]
  rw [hadd, TrieSearch.remove]
  rw [if_pos (show x ∈ ts.present ++ [x] from List.mem_append.mpr (Or.inr (by simp)))]
  have hroot : purge x (insertPaths x ts.mn (indexPaths ts x) ts.root) = ts.root := by
    rw [purge_insertPaths, purge_not_contains x ts.root hc hp]
  have hpres : (ts.present ++ [x]).filter (fun z => decide (¬ z = x)) = ts.present := by
    rw [List.filter_append]
    have h1 : ts.present.filter (fun z => decide (¬ z = x)) = ts.present := by
      apply List.filter_eq_self.mpr
      intro z hz
      have hne : z ≠ x := fun hzx => hx (hzx ▸ hz)
      simpa using hne
    have h2 : [x].filter (fun z => decide (¬ z = x)) = [] := by simp
    rw [h1, h2, List.append_nil]
  simp only [hroot, hpres]

/-- C2 witness: a fresh item round-trips on the example engine. -/
theorem add_remove_roundtrip_witness :
    (2 ∉ exOne.present ∧ containsT 2 exOne.root = false ∧ prunedT exOne.root = true) ∧
    (exOne.add 2).remove 2 = exOne :=
  ⟨⟨by decide, by decide, by decide⟩,
    add_remove_roundtrip exOne 2 (by decide) (by decide) (by decide)⟩

/-! ### Claim C3: reachable-state indexing invariant -/

/-- C3: every state reachable by any sequence of add and remove operations
satisfies the indexing invariant: for every present item, every indexable
word derived from it has a complete character path from the root ending at a
node whose item set contains the item (spec section 3). -/
theorem reachable_trieInvariant (ks : α → List (List Char)) (mn : Nat) (ic : Bool)
    (ts : TrieSearch α) (h : Reachable ks mn ic ts) : trieInvariant ts := by
  induction h with
  | init =>
    intro x hx
    exact absurd hx (by simp)
  | addStep ts x hr ih =>
    by_cases hx : x ∈ ts.present
    · have hno : ts.add x = ts := by rw [TrieSearch.add, if_pos hx]
      rw [hno]
      exact ih
    · have hadd : ts.add x = ⟨ts.keysel, ts.mn, ts.ignoreCase,
          insertPaths x ts.mn (indexPaths ts x) ts.root, ts.present ++ [x]⟩ := by
        rw [TrieSearch.add, if_neg hx]
      rw [hadd]
      intro y hy s hs w hw hlen
      rcases List.mem_append.mp hy with hy1 | hy2
      · obtain ⟨n, hn, hyn⟩ := ih y hy1 s hs w hw hlen
        exact lookup_insertPaths_pres x y ts.mn _ ts.root w n hn hyn
      · have hyx : y = x := by simpa using hy2
        subst hyx
        obtain ⟨hwne, hwws⟩ := mem_splitWs _ w hw
        apply lookup_insertPaths_self y ts.mn (indexPaths ts y) ts.root w ?_ hwne hlen
        rw [indexPaths, List.mem_flatMap]
        refine ⟨w, ?_, mem_suffixes_self w hwne⟩
        rw [indexWords, List.mem_flatMap]
        exact ⟨s, hs, hw⟩
  | removeStep ts y hr ih =>
    by_cases hy : y ∈ ts.present
    · have hrem : ts.remove y = ⟨ts.keysel, ts.mn, ts.ignoreCase, purge y ts.root,
          ts.present.filter (fun z => decide (¬ z = y))⟩ := by
        rw [TrieSearch.remove, if_pos hy]
      rw [hrem]
      intro z hz s hs w hw hlen
      have hz2 := List.mem_filter.mp hz
      have hzy : z ≠ y := by simpa using hz2.2
      obtain ⟨n, hn, hzn⟩ := ih z hz2.1 s hs w hw hlen
      exact lookup_purge_pres y z hzy w ts.root n hn hzn
    · have hno : ts.remove y = ts := by rw [TrieSearch.remove, if_neg hy]
      rw [hno]
      exact ih

/-- C3 witness: the invariant holds on the concretely reached scenario state. -/
theorem reachable_trieInvariant_witness : trieInvariant exThree :=
  reachable_trieInvariant exKeysel 1 true exThree
    (Reachable.addStep _ 3 (Reachable.addStep _ 2 (Reachable.addStep _ 1 Reachable.init)))

/-! ### Claim C4: empty, whitespace-only and unmatched queries -/

/-- C4: searching an empty or exclusively-whitespace query returns the empty
result, and a query containing a token with no indexed path returns the empty
overall result regardless of the other tokens (spec section 4.2, edge
policy). -/
theorem empty_and_unmatched_queries (ts : TrieSearch α) (q : List Char) :
    ((∀ c ∈ q, c.isWhitespace) → search ts q = []) ∧
    (∀ tok ∈ splitWs q,
      (lookupNode ts.root (normWord ts.ignoreCase tok)).isSome = false →
      search ts q = []) := by
  constructor
  · intro h
    rw [search, splitWs_all_ws q h]
    rfl
  · intro tok ht hnone
    have hlookup : lookupNode ts.root (normWord ts.ignoreCase tok) = none := by
      cases hopt : lookupNode ts.root (normWord ts.ignoreCase tok) with
      | none => rfl
      | some n => rw [hopt] at hnone; simp at hnone
    have hempty := searchToken_eq_nil ts tok hlookup
    rw [search]
    apply List.eq_nil_iff_forall_not_mem.mpr
    intro y hy
    have hne : splitWs q ≠ [] := by
      intro h0
      rw [h0] at ht
      simp at ht
    have hmem := (mem_searchTokens ts y _ hne).mp hy tok ht
    rw [hempty] at hmem
    simp at hmem

/-- C4 witness: whitespace-only and unmatched queries on the scenario engine. -/
theorem empty_and_unmatched_queries_witness :
    search exThree [' ', ' '] = [] ∧ search exThree ['z', 'z', 'z'] = [] :=
  ⟨(empty_and_unmatched_queries exThree [' ', ' ']).1 (by decide),
   (empty_and_unmatched_queries exThree ['z', 'z', 'z']).2 ['z', 'z', 'z']
     (by decide) (by decide)⟩

/-! ### Claim C5: the result limit truncates by traversal order -/

/-- C5: for every query and limit L, the limited result has length at most L
and is exactly the first min(L, n) elements, in order, of the unlimited
result (spec section 4.2 and section 8, limit property). -/
theorem limit_prefix (ts : TrieSearch α) (q : List Char) (L : Nat) :
    (searchLimited ts (some L) q).length ≤ L ∧
    searchLimited ts (some L) q =
      (search ts q).take (min L (search ts q).length) := by
  rw [searchLimited, takeLimit_eq_take]
  refine ⟨?_, ?_⟩
  · rw [List.length_take]
    exact Nat.min_le_left _ _
  · rw [List.take_eq_take]
    omega

/-! ### Claim C6: add is idempotent and results are duplicate-free -/

/-- C6: adding an item twice leaves the engine in the same state as adding it
once, hence all searches agree, and no search result ever contains duplicate
entries (spec sections 4.2 and 8, idempotence). -/
theorem add_idempotent (ts : TrieSearch α) (x : α) :
    (ts.add x).add x = ts.add x ∧
    (∀ q L, searchLimited ((ts.add x).add x) L q = searchLimited (ts.add x) L q) ∧
    (∀ q L, (searchLimited (ts.add x) L q).Nodup) := by
  have hidem : (ts.add x).add x = ts.add x := by
    rw [TrieSearch.add, if_pos (mem_add_present ts x)]
  refine ⟨hidem, ?_, ?_⟩
  · intro q L
    rw [hidem]
  · intro q L
    exact searchLimited_nodup (ts.add x) L q

/-! ### Claim C7: prefix monotonicity -/

/-- C7: for a non-empty single-token query with an exact match in the trie,
the result of searching any strictly longer extension of that token is
contained in the result of searching the token itself (spec section 8,
prefix-monotonicity). -/
theorem prefix_monotonic (ts : TrieSearch α) (t ext : List Char)
    (hne : t ≠ []) (hws : ∀ c ∈ t, ¬ c.isWhitespace)
    (hmatch : (lookupNode ts.root (normWord ts.ignoreCase t)).isSome = true)
    (hext : ext ≠ []) (hwse : ∀ c ∈ ext, ¬ c.isWhitespace) :
    ∀ y ∈ search ts (t ++ ext), y ∈ search ts t := by
  have h1 : search ts t = searchToken ts t := search_word ts t hne hws
  have h2 : search ts (t ++ ext) = searchToken ts (t ++ ext) := by
    apply search_word ts (t ++ ext) (by simp [hne])
    intro c hc
    rcases List.mem_append.mp hc with h | h
    · exact hws c h
    · exact hwse c h
  rw [h1, h2, searchToken, searchToken, normWord_append, lookupNode_append]
  cases hl : lookupNode ts.root (normWord ts.ignoreCase t) with
  | none => simp
  | some n =>
    simp only [Option.some_bind]
    cases hl2 : lookupNode n (normWord ts.ignoreCase ext) with
    | none => simp
    | some n2 =>
      intro y hy
      simp only [Option.elim_some] at hy ⊢
      rw [List.mem_dedup] at hy ⊢
      exact mem_collect_of_lookup _ n n2 hl2 y hy

/-- C7 witness: extending the matched token fire to fireb narrows the result
on the scenario engine. -/
theorem prefix_monotonic_witness :
    ((lookupNode exThree.root
        (normWord exThree.ignoreCase ['f', 'i', 'r', 'e'])).isSome = true) ∧
    ∀ y ∈ search exThree ['f', 'i', 'r', 'e', 'b'], y ∈ search exThree ['f', 'i', 'r', 'e'] :=
  ⟨by decide, prefix_monotonic exThree ['f', 'i', 'r', 'e'] ['b']
    (by decide) (by decide) (by decide) (by decide) (by decide)⟩

/-! ### Claim C8: destroyed facades reject mutation -/

/-- C8: destroy reaches the terminal Destroyed state from any facade state
without touching the bound TrieSearch; once destroyed, every state mutation
fails with InvalidState and publishes no result; and even successful
mutations never modify the underlying TrieSearch (spec sections 4.4 and 7).
-/
theorem destroyed_facade (qs : QueryState α) (q : List Char) (L : Option Nat) :
    ((destroyQuery qs).destroyed = true) ∧
    ((destroyQuery qs).trie = qs.trie) ∧
    (qs.destroyed = true → setQuery qs q = .error .invalidState) ∧
    (qs.destroyed = true → setLimit qs L = .error .invalidState) ∧
    (setQuery (destroyQuery qs) q = .error .invalidState) ∧
    (∀ qs2 res, setQuery qs q = .ok (qs2, res) → qs2.trie = qs.trie) := by
  refine ⟨rfl, rfl, ?_, ?_, ?_, ?_⟩
  · intro h
    rw [setQuery, if_pos h]
  · intro h
    rw [setLimit, if_pos h]
  · rw [setQuery, if_pos (show (destroyQuery qs).destroyed = true from rfl)]
  · intro qs2 res h
    rw [setQuery] at h
    by_cases hd : qs.destroyed = true
    · rw [if_pos hd] at h
      exact absurd h (by simp)
    · rw [if_neg hd] at h
      rw [Except.ok.injEq, Prod.mk.injEq] at h
      rw [← h.1]

/-- C8 witness: a concretely destroyed facade over the scenario engine. -/
theorem destroyed_facade_witness :
    exQueryDestroyed.destroyed = true ∧
    setQuery exQueryDestroyed ['f'] = .error .invalidState :=
  ⟨rfl, (destroyed_facade exQueryDestroyed ['f'] none).2.2.1 rfl⟩

/-! ### Claim C9: contradictory options fail at construction -/

/-- C9: constructing a TrieSearch or TrieSearchQuery with contradictory
options (missing key selector, negative minimum length, negative limit) fails
synchronously at construction with InvalidConfiguration; successful
construction certifies the options were valid, so no configuration failure
is ever deferred to the first search (spec section 7). -/
theorem construction_validation (opts : TrieSearchOptions α) (ts : TrieSearch α)
    (qopts : TrieSearchQueryOptions) :
    (opts.keysel = none → TrieSearch.create opts = .error .invalidConfiguration) ∧
    (opts.mn < 0 → TrieSearch.create opts = .error .invalidConfiguration) ∧
    (∀ L, qopts.limit = some L → L < 0 →
      TrieSearchQuery.create ts qopts = .error .invalidConfiguration) ∧
    (∀ ts2, TrieSearch.create opts = .ok ts2 → opts.keysel ≠ none ∧ 0 ≤ opts.mn) ∧
    (∀ qs, TrieSearchQuery.create ts qopts = .ok qs →
      ∀ L, qopts.limit = some L → 0 ≤ L) := by
  refine ⟨?_, ?_, ?_, ?_, ?_⟩
  · intro h
    rw [TrieSearch.create, h]
  · intro h
    rw [TrieSearch.create]
    cases hk : opts.keysel with
    | none => rfl
    | some ks => simp [h]
  · intro L hL hneg
    rw [TrieSearchQuery.create, hL]
    simp [hneg]
  · intro ts2 h
    rw [TrieSearch.create] at h
    cases hk : opts.keysel with
    | none => rw [hk] at h; simp at h
    | some ks =>
      rw [hk] at h
      refine ⟨by simp [hk], ?_⟩
      by_cases hm : opts.mn < 0
      · simp [hm] at h
      · omega
  · intro qs h L hL
    rw [TrieSearchQuery.create, hL] at h
    by_cases hm : L < 0
    · simp [hm] at h
    · omega

/-- C9 witness: a missing key selector and a negative limit are both rejected
at construction. -/
theorem construction_validation_witness :
    TrieSearch.create exBadTSOptions = .error .invalidConfiguration ∧
    TrieSearchQuery.create exThree exBadQueryOptions = .error .invalidConfiguration :=
  ⟨(construction_validation exBadTSOptions exThree exBadQueryOptions).1 rfl,
   (construction_validation exBadTSOptions exThree exBadQueryOptions).2.2.1 (-1) rfl
     (by decide)⟩

/-! ### Claim C10: minify returns the earliest shortest candidate -/

theorem fsFold_spec : ∀ (rest : List String) (v : String),
    (∃ l1 l2, v :: rest = l1 ++ (fsFold v rest) :: l2 ∧
      ∀ w ∈ l1, (fsFold v rest).length < w.length) ∧
    ∀ w ∈ v :: rest, (fsFold v rest).length ≤ w.length
  | [], v => ⟨⟨[], [], rfl, by simp⟩, by simp [fsFold]⟩
  | s :: rest, v => by
    have hstep : fsFold v (s :: rest) = fsFold (if s.length < v.length then s else v) rest := by
      simp only [fsFold, List.foldl_cons]
    by_cases hs : s.length < v.length
    · rw [if_pos hs] at hstep
      obtain ⟨⟨l1, l2, hsplit, hmin⟩, hle⟩ := fsFold_spec rest s
      rw [hstep]
      have hr : (fsFold s rest).length ≤ s.length := hle s (by simp)
      refine ⟨⟨v :: l1, l2, by rw [List.cons_append, ← hsplit], ?_⟩, ?_⟩
      · intro w hw
        rcases List.mem_cons.mp hw with rfl | hw2
        · omega
        · exact hmin w hw2
      · intro w hw
        rcases List.mem_cons.mp hw with rfl | hw2
        · omega
        · exact hle w hw2
    · rw [if_neg hs] at hstep
      obtain ⟨⟨l1, l2, hsplit, hmin⟩, hle⟩ := fsFold_spec rest v
      rw [hstep]
      have hv : (fsFold v rest).length ≤ v.length := hle v (by simp)
      cases l1 with
      | nil =>
        simp only [List.nil_append] at hsplit
        injection hsplit with hv2 hl2
        refine ⟨⟨[], s :: rest, ?_, by simp⟩, ?_⟩
        · simp only [List.nil_append]
          rw [← hv2]
        · intro w hw
          rcases List.mem_cons.mp hw with rfl | hw2
          · exact hv
          rcases List.mem_cons.mp hw2 with rfl | hw3
          · omega
          · exact hle w (by simp [hw3])
      | cons a l1x =>
        simp only [List.cons_append] at hsplit
        injection hsplit with hva hrest
        subst hva
        have hfv : (fsFold v rest).length < v.length := hmin v (by simp)
        refine ⟨⟨v :: s :: l1x, l2, ?_, ?_⟩, ?_⟩
        · simp only [List.cons_append]
          rw [← hrest]
        · intro w hw
          rcases List.mem_cons.mp hw with rfl | hw2
          · exact hfv
          rcases List.mem_cons.mp hw2 with rfl | hw3
          · omega
          · exact hmin w (by simp [hw3])
        · intro w hw
          rcases List.mem_cons.mp hw with rfl | hw2
          · exact hv
          rcases List.mem_cons.mp hw2 with rfl | hw3
          · omega
          · exact hle w (by simp [hw3])

/-- C10 counterexample: with every candidate format disabled, minify
generates no candidate and returns undefined (none), not a shortest string.
-/
theorem minify_counterexample :
    minifyVariants exRatStr exColorRed exAllOff = [] ∧
    minify exRatStr exColorRed exAllOff = none ∧
    ¬ ∃ r : String, minify exRatStr exColorRed exAllOff = some r := by
  refine ⟨rfl, rfl, ?_⟩
  rintro ⟨r, hr⟩
  rw [show minify exRatStr exColorRed exAllOff = none from rfl] at hr
  exact Option.noConfusion hr

/-- C10 (amended): whenever at least one candidate is generated, minify
returns the shortest generated candidate, the earliest among equally short
ones (only strictly shorter candidates replace the running best), and the
hex candidate guard admits a translucent color only when its two-digit alpha
round-trip is lossless (minify.js, `findShortestString` and `minifyHex`). -/
theorem minify_shortest (ratStr : ℚ → String) (inst : ColorInst) (opts : MinifyOptions)
    (hne : minifyVariants ratStr inst opts ≠ []) :
    (∃ r, minify ratStr inst opts = some r ∧
      (∃ l1 l2, minifyVariants ratStr inst opts = l1 ++ r :: l2 ∧
        ∀ v ∈ l1, r.length < v.length) ∧
      (∀ v ∈ minifyVariants ratStr inst opts, r.length ≤ v.length)) ∧
    (∀ hx, minifyHex inst = some hx → 0 < inst.alphaV → inst.alphaV < 1 →
      ∃ v, parseHex2 (inst.hex.get? 7) (inst.hex.get? 8) = some v ∧
        jsRound 2 ((v : ℚ) / 255) = inst.alphaV) := by
  constructor
  · cases hvs : minifyVariants ratStr inst opts with
    | nil => exact absurd hvs hne
    | cons v rest =>
      obtain ⟨⟨l1, l2, hsplit, hmin⟩, hle⟩ := fsFold_spec rest v
      refine ⟨fsFold v rest, ?_, ⟨l1, l2, hsplit, hmin⟩, ?_⟩
      · simp only [minify]
        rw [hvs]
        simp [findShortestString]
      · intro w hw
        exact hle w hw
  · intro hx hhx h0 h1
    rw [minifyHex] at hhx
    by_cases hcond : 0 < inst.alphaV ∧ inst.alphaV < 1 ∧
        alphaLossy inst.alphaV (inst.hex.get? 7) (inst.hex.get? 8) = true
    · rw [if_pos hcond] at hhx
      exact absurd hhx (by simp)
    · have hlossy : alphaLossy inst.alphaV (inst.hex.get? 7) (inst.hex.get? 8) = false := by
        rcases Bool.eq_false_or_eq_true
          (alphaLossy inst.alphaV (inst.hex.get? 7) (inst.hex.get? 8)) with h | h
        · exact absurd ⟨h0, h1, h⟩ hcond
        · exact h
      rw [alphaLossy] at hlossy
      cases hp : parseHex2 (inst.hex.get? 7) (inst.hex.get? 8) with
      | none => rw [hp] at hlossy; simp at hlossy
      | some v =>
        rw [hp] at hlossy
        refine ⟨v, rfl, ?_⟩
        simpa using hlossy

/-- C10 witness: minifying opaque red with default options picks the shortest
candidate among hex, rgb and hsl. -/
theorem minify_shortest_witness :
    (minifyVariants exRatStr exColorRed exDefaults ≠ []) ∧
    ((∃ r, minify exRatStr exColorRed exDefaults = some r ∧
      (∃ l1 l2, minifyVariants exRatStr exColorRed exDefaults = l1 ++ r :: l2 ∧
        ∀ v ∈ l1, r.length < v.length) ∧
      (∀ v ∈ minifyVariants exRatStr exColorRed exDefaults, r.length ≤ v.length)) ∧
    (∀ hx, minifyHex exColorRed = some hx → 0 < exColorRed.alphaV →
      exColorRed.alphaV < 1 →
      ∃ v, parseHex2 (exColorRed.hex.get? 7) (exColorRed.hex.get? 8) = some v ∧
        jsRound 2 ((v : ℚ) / 255) = exColorRed.alphaV)) :=
  ⟨by decide, minify_shortest exRatStr exColorRed exDefaults (by decide)⟩

end TyphonTS
